import Mathlib

/-!
A shallow embedding of pnpm's `npx` (src/index.js) and proofs about it.

Conventions of the embedding:
* JS strings are Lean `String` (paths) or `List Char` (file contents being
  scanned); machine-level details (UTF-16 vs UTF-8) do not matter for the
  properties at hand, all concrete inputs are ASCII.
* JS truthiness is made explicit: `Option` models possibly-`undefined`
  values, and dedicated `...truthy` functions mirror JS coercion where the
  source branches on a raw value (`if (err.exitCode)`, `cmdOpts || []`, ...).
* Asynchronous code is modelled by explicit outcome parameters (the result
  of `which`, of the installer spawn, ...) and by event traces where the
  order of effects matters (`ensurePackages`).
* The platform is POSIX (`process.platform !== 'win32'`): the claims under
  study are about the POSIX code paths; `path.delimiter` is `':'` and the
  ephemeral bin directory is `<prefix>/bin`.
-/

namespace Npx

/-! ## JS regex whitespace and case-insensitive comparison -/

/-- The JS regex `\s` character class, restricted to the ASCII range
(the Unicode space characters play no role in any input considered here). -/
def wsChar (c : Char) : Bool :=
  c == ' ' || c == '\t' || c == '\n' || c == '\x0b' || c == '\x0c' || c == '\r'

/-- Case-insensitive character comparison, as performed by a JS regex with
the `i` flag on ASCII input. -/
def lowEq (a b : Char) : Bool :=
  a.toLower == b.toLower

/-- Case-insensitive comparison of a literal pattern against a chunk of
input of the same length. -/
def ciAgreeB : List Char → List Char → Bool
  | [], [] => true
  | p :: ps, c :: cs => lowEq p c && ciAgreeB ps cs
  | _, _ => false

/-- All characters of the list are regex whitespace. -/
def allWs (l : List Char) : Bool :=
  l.all wsChar

/-! ## The shebang matcher of `findNodeScript` (src/index.js:355-356)

The source tests
`/#!\s*(?:\/usr\/bin\/env\s*node|\/usr\/local\/bin\/node|\/usr\/bin\/node)\s*\r?\n/i`
against the first 400 bytes of the file with `String.prototype.match`,
which is NOT anchored: the pattern may match at any position.  Since `\r`
is itself in `\s`, the tail `\s*\r?\n` accepts exactly the strings
`w ++ "\n"` with `w` all-whitespace. -/

/-- Drop a case-insensitive literal from the front of the input, returning
the rest on success. -/
def dropLit : List Char → List Char → Option (List Char)
  | [], s => some s
  | _ :: _, [] => none
  | p :: ps, c :: cs => if lowEq p c then dropLit ps cs else none

/-- Drop the maximal leading run of regex whitespace. -/
def dropWs : List Char → List Char
  | [] => []
  | c :: cs => if wsChar c then dropWs cs else c :: cs

/-- Does the input start with `w ++ "\n"` for some all-whitespace `w`?
This is the language of the regex tail `\s*\r?\n`. -/
def wsThenNl : List Char → Bool
  | [] => false
  | c :: cs => if c == '\n' then true else if wsChar c then wsThenNl cs else false

def envChars : List Char := "/usr/bin/env".data
def nodeChars : List Char := "node".data
def localChars : List Char := "/usr/local/bin/node".data
def binChars : List Char := "/usr/bin/node".data

/-- Does the shebang regex match at this exact position of the input? -/
def matchDirAt (s : List Char) : Bool :=
  match dropLit ['#', '!'] s with
  | none => false
  | some r1 =>
    let r2 := dropWs r1
    (match dropLit envChars r2 with
     | some r3 =>
       match dropLit nodeChars (dropWs r3) with
       | some r4 => wsThenNl r4
       | none => false
     | none => false)
    ||
    (match dropLit localChars r2 with
     | some r3 => wsThenNl r3
     | none => false)
    ||
    (match dropLit binChars r2 with
     | some r3 => wsThenNl r3
     | none => false)

/-- Unanchored search, as performed by `String.prototype.match`. -/
def hasDirective : List Char → Bool
  | [] => false
  | c :: cs => matchDirAt (c :: cs) || hasDirective cs

/-- The POSIX script test of `findNodeScript`: only the first 400 bytes of
the file are read (src/index.js:346); the zero padding of the freshly
allocated buffer can neither create nor destroy a match, so it is omitted. -/
def shebangClassify (content : List Char) : Bool :=
  hasDirective (content.take 400)

/-! ## Relational specification of the shebang-directive language

Used to state the amended form of the shebang claim: a directive is
`#!`, optional whitespace, one of the three interpreter paths
(case-insensitively, `env` optionally separated from `node` by whitespace),
optional whitespace, a newline. -/

/-- The path part of a directive, case-insensitively. -/
def PathSpec (p : List Char) : Prop :=
  (∃ e w n, p = e ++ w ++ n ∧ ciAgreeB envChars e = true ∧ allWs w = true ∧
    ciAgreeB nodeChars n = true) ∨
  ciAgreeB localChars p = true ∨
  ciAgreeB binChars p = true

/-- Predicate: `d` is a complete interpreter directive as accepted by the source regex. -/
def IsDirective (d : List Char) : Prop :=
  ∃ h w1 p w2, d = h ++ w1 ++ p ++ w2 ++ ['\n'] ∧
    ciAgreeB ['#', '!'] h = true ∧ allWs w1 = true ∧ PathSpec p ∧ allWs w2 = true

/-! ## `path.extname` and the trusted-extension test -/

/-- The basename of a POSIX path: the characters after the last `/`. -/
def lastComponent (l : List Char) : List Char :=
  l.foldl (fun acc c => if c == '/' then [] else acc ++ [c]) []

/-- Extension from the last dot of a basename tail; `none` when there is
no dot. -/
def extOfAux : List Char → Option (List Char)
  | [] => none
  | c :: cs =>
    match extOfAux cs with
    | some e => some e
    | none => if c == '.' then some (c :: cs) else none

/-- Model of `path.extname`, POSIX flavour: extension of the basename from its last
dot, empty when the only dot is the leading one (dotfiles). -/
def extname (p : String) : String :=
  match lastComponent p.data with
  | [] => ⟨[]⟩
  | c :: cs =>
    if c == '.' then ⟨(extOfAux cs).getD []⟩ else ⟨(extOfAux (c :: cs)).getD []⟩

/-- The test `['.js', '.cjs'].includes(path.extname(existing))`
(src/index.js:328). -/
def jsExt (p : String) : Bool :=
  extname p == ".js" || extname p == ".cjs"

/-! ## JS `||` on possibly-undefined strings -/

/-- JS `a || b` where `a` is a string or `undefined`: `undefined` and the
empty string are falsy. -/
def jsStrOr (a b : Option String) : Option String :=
  match a with
  | some s => if s = "" then b else some s
  | none => b

/-! ## The filesystem model and `findNodeScript` (src/index.js:322-378) -/

/-- A loaded `package.json`, restricted to the fields the source reads.
`bin` is modelled as a string entry (the source passes it to
`path.resolve`, so only the string form is meaningfully supported). -/
structure Manifest where
  bin : Option String
  main : Option String
deriving DecidableEq

/-- A filesystem entry: a regular file with contents, or a directory whose
`package.json`, when present and parseable, is carried alongside. -/
inductive FsEntry
  | file (content : List Char)
  | directory (manifest : Option Manifest)
deriving DecidableEq

/-- A filesystem: a finite association of absolute paths to entries.
Paths absent from the list make `fs.stat` fail. -/
abbrev FS := List (String × FsEntry)

def fsLookup (fs : FS) (p : String) : Option FsEntry :=
  fs.lookup p

/-- The outcome of `findNodeScript`'s promise:
* `notScript`: resolved with a falsy value (input absent, or no shebang);
* `script p`: resolved with the script path `p`;
* `cnf t`: rejected with `command not found: t` (thrown at
  src/index.js:339 or :343);
* `fsError p`: rejected with a raw filesystem error at `p` (failed `stat`,
  or reading a directory as a file). -/
inductive FindResult
  | notScript
  | script (p : String)
  | cnf (target : String)
  | fsError (p : String)
deriving DecidableEq

/-- The target computed from a manifest:
`pkg.bin || pkg.main || 'index.js'` (src/index.js:334). -/
def manifestTarget (m : Manifest) : String :=
  (jsStrOr m.bin (jsStrOr m.main (some "index.js"))).getD "index.js"

/-- Model of `findNodeScript(existing, opts)` on POSIX, over the abstract
filesystem.  `fuel` only bounds the manifest-chain recursion depth (the
source recurses without any guard); every theorem below supplies enough
fuel for the chains it mentions.

Branch order follows the source exactly: falsy input first; then `stat`;
then the trusted-extension test (`opts.isLocal` and `.js`/`.cjs`); then
the local directory-as-package branch, whose synchronous `require` failure
(missing or unparseable manifest) becomes `command not found: <dir>`,
whose recursive resolution to a falsy value becomes
`command not found: <target>`, and whose recursive rejection propagates
verbatim; otherwise the file's leading 400 bytes are sniffed for a
shebang directive. -/
def findNodeScript : Nat → FS → Option String → Bool → FindResult
  | _, _, none, _ => .notScript
  | 0, _, some p, _ => .fsError p
  | fuel + 1, fs, some p, isLocal =>
    match fsLookup fs p with
    | none => .fsError p
    | some entry =>
      if isLocal && jsExt p then .script p
      else
        match entry with
        | .directory m =>
          if isLocal then
            match m with
            | none => .cnf p
            | some man =>
              let target := p ++ "/" ++ manifestTarget man
              match findNodeScript fuel fs (some target) isLocal with
              | .script s => .script s
              | .notScript => .cnf target
              | .cnf t => .cnf t
              | .fsError q => .fsError q
          else .fsError p
        | .file content =>
          if shebangClassify content then .script p else .notScript

def FindResult.isCnf : FindResult → Bool
  | .cnf _ => true
  | _ => false

/-! ## `getExistingPath` (src/index.js:179-199) -/

/-- An error rejected by the `which` lookup: `which` itself only sets a
`code` property; the `exitCode` property is added (to `127`) by
`getExistingPath` alone. -/
structure WhichErr where
  code : String
  exitCode : Option Nat
deriving DecidableEq

/-- The outcome of the `which(command)` promise. -/
inductive WhichRes
  | found (p : String)
  | errored (e : WhichErr)
deriving DecidableEq

/-- The flags of `argv` that `getExistingPath` consults. -/
structure GepOpts where
  isLocal : Bool
  cmdHadVersion : Bool
  packageRequested : Bool
  ignoreExisting : Bool
  install : Option Bool
deriving DecidableEq

/-- The outcome of the `getExistingPath` promise: resolved with a path,
resolved with a falsy value (so the caller falls through to the install
path), or rejected with an error. -/
inductive GepRes
  | okPath (p : String)
  | okFalsy
  | errored (e : WhichErr)
deriving DecidableEq

/-- Model of `getExistingPath(command, opts)`, with the `which` outcome passed
explicitly.  Mirrors src/index.js:179-199: local requests return the
command unchanged without any lookup; version-pinned / package-requested /
ignore-existing requests resolve falsy; otherwise `which` runs and its
`ENOENT` rejection is swallowed (falsy) unless installation was explicitly
disabled, in which case the error is rethrown with `exitCode = 127`; any
other rejection is rethrown verbatim. -/
def getExistingPath (command : String) (opts : GepOpts) (lookup : WhichRes) :
    GepRes :=
  if opts.isLocal then .okPath command
  else if opts.cmdHadVersion || opts.packageRequested || opts.ignoreExisting then
    .okFalsy
  else
    match lookup with
    | .found p => .okPath p
    | .errored e =>
      if e.code = "ENOENT" then
        if opts.install = some false then .errored { e with exitCode := some 127 }
        else .okFalsy
      else .errored e

/-! ## `buildArgs` / `installPackages` (src/index.js:220-263) and the
top-level catch (src/index.js:117-120) -/

/-- Model of `buildArgs(specs, prefix, opts)`: the argument vector handed to the
package manager. -/
def buildArgs (specs : List String) (prefixDir : String)
    (userconfig : Option String) : List String :=
  ["install"] ++ specs ++ ["--global", "--dir", prefixDir] ++
    (match userconfig with
     | some u => ["--userconfig", u]
     | none => [])

/-- An error as thrown inside this program: a message and an optional
`exitCode` property. -/
structure NpxErr where
  message : String
  exitCode : Option Nat
deriving DecidableEq

/-- The outcome of the single `child.spawn` of the installer: a clean exit
with captured stdout, or a rejection carrying the spawn error's message and
optional exit code. -/
inductive SpawnRes
  | exited (stdout : Option String)
  | failed (exitCode : Option Nat) (origMsg : String)
deriving DecidableEq

/-- The message built at src/index.js:258 — the template literal
interpolates the specs array, which JS renders comma-joined. -/
def installMsg (specs : List String) (code : Nat) : String :=
  "Install for " ++ String.intercalate "," specs ++ " failed with code " ++
    toString code

/-- Model of `installPackages(specs, prefix, opts)`: returns the list of installer
invocations performed (always exactly the one `buildArgs` vector — the
source never retries) together with the promise outcome.  On a rejection
whose `exitCode` is truthy, the message is replaced by `installMsg` and the
same error object is rethrown; otherwise the rejection propagates
unchanged.  Structured stdout is passed through opaquely (`JSON.parse`
failures resolve with `undefined`, collapsed here into the payload). -/
def installPackages (specs : List String) (prefixDir : String)
    (userconfig : Option String) (res : SpawnRes) :
    List (List String) × Except NpxErr (Option String) :=
  ([buildArgs specs prefixDir userconfig],
    match res with
    | .exited out => .ok out
    | .failed ec msg =>
      .error
        { message :=
            match ec with
            | some c => if c ≠ 0 then installMsg specs c else msg
            | none => msg
          exitCode := ec })

/-- The top-level catch of `npx` (src/index.js:119):
`process.exitCode = err.exitCode || 1`. -/
def npxCatchExit (e : NpxErr) : Nat :=
  match e.exitCode with
  | some c => if c = 0 then 1 else c
  | none => 1

/-! ## `--node-arg` normalisation and the spawn-branch argument
composition of `execCommand` (src/index.js:283-307) -/

/-- The JS value of `argv.nodeArg`: absent (`undefined`), a single string,
or an array of strings. -/
inductive NodeArgVal
  | absent
  | str (s : String)
  | arr (l : List String)
deriving DecidableEq

/-- JS truthiness of the raw value (`!argv.nodeArg`): `undefined` and `""`
are falsy; every array — even the empty one — is truthy. -/
def NodeArgVal.truthy : NodeArgVal → Bool
  | .absent => false
  | .str s => s ≠ ""
  | .arr _ => true

/-- JS truthiness of `argv.nodeArg && argv.nodeArg.length` — the guard of
the usage error at src/index.js:281. -/
def NodeArgVal.lengthTruthy : NodeArgVal → Bool
  | .absent => false
  | .str s => s.length ≠ 0
  | .arr l => l.length ≠ 0

/-- The normalisation at src/index.js:293-298: falsy values become `[]`, a
string becomes a one-element array, an array stays itself. -/
def NodeArgVal.normalize : NodeArgVal → List String
  | .absent => []
  | .str s => if s = "" then [] else [s]
  | .arr l => l

/-- Model of `String.prototype.split(/\s+/)`: maximal whitespace runs separate
tokens; a leading (resp. trailing) run contributes a leading (resp.
trailing) empty token, and the empty string yields `[""]`.  The `Bool`
records whether the scanner stands inside a whitespace run. -/
def jsSplitAux : Bool → List Char → List (List Char)
  | _, [] => [[]]
  | inRun, c :: cs =>
    if wsChar c then
      if inRun then jsSplitAux true cs else [] :: jsSplitAux true cs
    else
      match jsSplitAux false cs with
      | [] => [[c]]
      | t :: ts => (c :: t) :: ts

def jsSplitWs (l : List Char) : List (List Char) :=
  jsSplitAux false l

def jsSplitStr (s : String) : List String :=
  (jsSplitWs s.data).map fun l => ⟨l⟩

/-- The reduce at src/index.js:302-304: every element of the normalised
`nodeArg` array is split on whitespace runs and the pieces concatenated. -/
def splitArgs (l : List String) : List String :=
  l.foldl (fun acc a => acc ++ jsSplitStr a) []

/-! ## `execCommand` (src/index.js:265-320) -/

/-- The fields of `argv` that `execCommand` consults, plus the two
`process.argv` slots it reads. -/
structure ExecArgv where
  alwaysSpawn : Bool
  nodeArg : NodeArgVal
  shell : Bool
  cmdOpts : List String
  nodeBin : String
  currentScript : String
deriving DecidableEq

/-- What `execCommand` does, once the `findNodeScript` outcome is in hand:
* `takeover argvNew`: set `process.argv := argvNew` and call
  `Module.runMain()` — the current process is handed over, no child is
  spawned;
* `usageError`: throw the `--node-arg` usage error (src/index.js:282);
* `spawn cmd cmdOpts`: call `child.runCommand(cmd, opts)` with the given
  command (`none` models the falsy `existing`) and composed `cmdOpts`. -/
inductive ExecAction
  | takeover (argvNew : List String)
  | usageError
  | spawn (cmd : Option String) (cmdOpts : List String)
deriving DecidableEq

/-- The branch structure of `execCommand` (src/index.js:266-307), with the
resolved target (`findNodeScript`'s truthy-or-falsy outcome) passed in. -/
def execCommand (resolved : Option String) (a : ExecArgv) : ExecAction :=
  match resolved with
  | some p =>
    if !a.alwaysSpawn && !a.nodeArg.truthy && !a.shell && p != a.currentScript then
      .takeover (a.nodeBin :: p :: a.cmdOpts)
    else
      .spawn (some a.nodeBin) (splitArgs a.nodeArg.normalize ++ p :: a.cmdOpts)
  | none =>
    if a.nodeArg.lengthTruthy then .usageError
    else .spawn none a.cmdOpts

def ExecAction.isTakeover : ExecAction → Bool
  | .takeover _ => true
  | _ => false

/-! ## The child-error handler of the spawn branch (src/index.js:308-317) -/

/-- An error rejected by `child.runCommand`: its `isOperational` mark, its
(possibly absent) `exitCode`, and an opaque identity so that "rethrown
verbatim" is expressible. -/
structure ChildErr where
  isOperational : Bool
  exitCode : Option Nat
  errId : Nat
deriving DecidableEq

/-- The outcome of the spawned child's promise. -/
inductive ChildOutcome
  | success
  | failure (e : ChildErr)
deriving DecidableEq

/-- What the catch at src/index.js:308-317 produces. -/
inductive ChildHandled
  | ok
  | setExit (c : Nat)
  | rethrow (e : ChildErr)
deriving DecidableEq

/-- JS truthiness of `err.exitCode`. -/
def exitCodeTruthy : Option Nat → Bool
  | none => false
  | some c => c ≠ 0

/-- The catch handler: operational errors with a truthy exit code set the
caller's exit code and are swallowed; everything else is rethrown. -/
def handleChildResult : ChildOutcome → ChildHandled
  | .success => .ok
  | .failure e =>
    if e.isOperational && exitCodeTruthy e.exitCode then
      .setExit (e.exitCode.getD 0)
    else .rethrow e

/-! ## PATH splicing (src/index.js:44 and :170) -/

/-- PATH splice: the string `dir + path.delimiter + PATH` on POSIX. -/
def pathPrepend (dir path : List Char) : List Char :=
  dir ++ ':' :: path

/-- Split on a delimiter character; always returns at least one (possibly
empty) segment, like JS `split`. -/
def splitOnChar (d : Char) : List Char → List (List Char)
  | [] => [[]]
  | c :: cs =>
    if c == d then [] :: splitOnChar d cs
    else
      match splitOnChar d cs with
      | [] => [[c]]
      | t :: ts => (c :: t) :: ts

/-- Search-path resolution: the first directory of the PATH (in order)
whose contents include the command wins; `contains` abstracts the
filesystem. -/
def resolveOnPath (contains : List Char → String → Bool)
    (dirs : List (List Char)) (cmd : String) : Option (List Char) :=
  dirs.find? fun d => contains d cmd

/-! ## `ensurePackages` as an event trace (src/index.js:146-177) -/

/-- Model of `path.join(cache, '_npx', process.pid.toString())` on POSIX. -/
def npxPrefixDir (cache : String) (pid : Nat) : String :=
  cache ++ "/_npx/" ++ toString pid

/-- The ephemeral bin directory on POSIX (src/index.js:151-153). -/
def npxBins (prefixDir : String) : String :=
  prefixDir ++ "/bin"

/-- The externally visible effects of `ensurePackages`, in order. -/
inductive PEvent
  | mkdirRec (p : String)
  | registerExitCleanup (p : String)
  | rimrafDir (p : String)
  | installInvoke (specs : List String) (prefixDir : String)
  | prependPathEv (bins : String)
deriving DecidableEq

/-- The effect trace of one `ensurePackages(specs, opts)` run, given
whether the installer step succeeds: synchronously create the prefix, then
register the exit-time cleanup, then clear the bin directory, then invoke
the install; only on success is the bin directory spliced onto PATH
(src/index.js:154-175). -/
def ensurePackagesEvents (specs : List String) (cache : String) (pid : Nat)
    (installOk : Bool) : List PEvent :=
  let p := npxPrefixDir cache pid
  let b := npxBins p
  [.mkdirRec p, .registerExitCleanup p, .rimrafDir b, .installInvoke specs p] ++
    (if installOk then [.prependPathEv b] else [])

/-- Whether `q` lies at or under the directory `p`. -/
def underDir (p q : String) : Bool :=
  p == q || List.isPrefixOf (p ++ "/").data q.data

/-- Recursive removal of a directory from the set of existing paths. -/
def rmRecFs (fs : List String) (p : String) : List String :=
  fs.filter fun q => !underDir p q

/-- Process state: the existing paths, and the prefixes whose removal has
been registered with `process.on('exit', ...)`. -/
structure ProcState where
  fs : List String
  hooks : List String
deriving DecidableEq

def stepEvent (st : ProcState) : PEvent → ProcState
  | .mkdirRec p => { st with fs := p :: st.fs }
  | .registerExitCleanup p => { st with hooks := st.hooks ++ [p] }
  | .rimrafDir b => { st with fs := rmRecFs st.fs b }
  | .installInvoke _ _ => st
  | .prependPathEv _ => st

def runEvents (st : ProcState) (evs : List PEvent) : ProcState :=
  evs.foldl stepEvent st

/-- Process exit: each registered hook runs
`try { fs.rmdirSync(prefix, { recursive: true }) } catch (err) { }`
(src/index.js:156-163).  A failing removal is swallowed — the handler is
total and leaves the filesystem untouched instead of crashing; a
succeeding removal deletes the prefix recursively. -/
def processExit (removalOk : Bool) (st : ProcState) : List String :=
  if removalOk then st.hooks.foldl rmRecFs st.fs else st.fs

/-! ## Post-install binary selection (src/index.js:95-114) -/

/-- Claim C9: for every spawned child that fails, an operational failure
carrying a (truthy) exit code sets the caller's process exit code to the
child's exit code verbatim and nothing is rethrown; any other child
failure is rethrown verbatim as a fatal error. -/
theorem claim_C9 :
    (∀ (e : ChildErr) (c : Nat), e.isOperational = true → e.exitCode = some c →
      c ≠ 0 → handleChildResult (.failure e) = .setExit c) ∧
    (∀ e : ChildErr,
      e.isOperational = false ∨ e.exitCode = none ∨ e.exitCode = some 0 →
      handleChildResult (.failure e) = .rethrow e) := by
  constructor
  · intro e c hop hec hc
    simp [handleChildResult, hop, hec, exitCodeTruthy, hc]
  · intro e h
    rcases h with h | h | h <;> simp [handleChildResult, h, exitCodeTruthy]

/-- Witness for C9 at concrete inputs. -/
theorem claim_C9_witness :
    handleChildResult (.failure ⟨true, some 3, 0⟩) = .setExit 3 ∧
    handleChildResult (.failure ⟨false, some 3, 1⟩) = .rethrow ⟨false, some 3, 1⟩ :=
  ⟨claim_C9.1 ⟨true, some 3, 0⟩ 3 rfl rfl (by decide),
   claim_C9.2 ⟨false, some 3, 1⟩ (Or.inl rfl)⟩

/-! ## Claim C7: install-failure policy -/

/-- Claim C7: when the package manager exits non-zero, the one (never
retried) install invocation's failure is rethrown with a message naming
the requested specs and the exit code, and the top-level catch makes that
exit code — not a generic 1 — the process exit code. -/
theorem claim_C7 :
    ∀ (specs : List String) (prefixDir : String) (userconfig : Option String)
      (c : Nat) (msg : String), c ≠ 0 →
    (installPackages specs prefixDir userconfig (.failed (some c) msg)).1 =
      [buildArgs specs prefixDir userconfig] ∧
    (installPackages specs prefixDir userconfig (.failed (some c) msg)).2 =
      .error ⟨installMsg specs c, some c⟩ ∧
    installMsg specs c =
      "Install for " ++ String.intercalate "," specs ++ " failed with code " ++
        toString c ∧
    npxCatchExit ⟨installMsg specs c, some c⟩ = c := by
  intro specs pd uc c msg hc
  refine ⟨rfl, ?_, rfl, ?_⟩
  · simp [installPackages, hc]
  · simp [npxCatchExit, hc]

/-- Witness for C7 at concrete inputs. -/
theorem claim_C7_witness :
    (installPackages ["cowsay"] "/c/_npx/42" none (.failed (some 7) "boom")).2 =
      .error ⟨"Install for cowsay failed with code 7", some 7⟩ ∧
    npxCatchExit ⟨"Install for cowsay failed with code 7", some 7⟩ = 7 := by
  have h := claim_C7 ["cowsay"] "/c/_npx/42" none 7 "boom" (by decide)
  exact ⟨by rw [h.2.1]; rfl, h.2.2.2⟩

/-! ## Claim C5: the existence check -/

/-- Claim C5: `getExistingPath` on a bare command yields the found path,
or — when `which` reports the command absent — an error carrying
`exitCode 127` exactly when installation was explicitly disabled, falling
through silently otherwise; any other lookup failure is propagated
verbatim; and a request marked local skips the lookup and returns the
command unchanged. -/
theorem claim_C5 :
    ∀ (command : String) (opts : GepOpts) (lookup : WhichRes),
    (opts.isLocal = true → getExistingPath command opts lookup = .okPath command) ∧
    (opts.isLocal = false → opts.cmdHadVersion = false →
      opts.packageRequested = false → opts.ignoreExisting = false →
      (∀ p, lookup = .found p → getExistingPath command opts lookup = .okPath p) ∧
      (∀ e, lookup = .errored e → e.code = "ENOENT" → opts.install = some false →
        getExistingPath command opts lookup =
          .errored { e with exitCode := some 127 }) ∧
      (∀ e, lookup = .errored e → e.code = "ENOENT" → opts.install ≠ some false →
        getExistingPath command opts lookup = .okFalsy) ∧
      (∀ e, lookup = .errored e → e.code ≠ "ENOENT" →
        getExistingPath command opts lookup = .errored e)) ∧
    ((∀ e, lookup = .errored e → e.exitCode = none) →
      ∀ e', getExistingPath command opts lookup = .errored e' →
        e'.exitCode = some 127 → e'.code = "ENOENT" ∧ opts.install = some false) := by
  intro command opts lookup
  refine ⟨?_, ?_, ?_⟩
  · intro h; simp [getExistingPath, h]
  · intro h1 h2 h3 h4
    refine ⟨?_, ?_, ?_, ?_⟩
    · intro p hp; simp [getExistingPath, h1, h2, h3, h4, hp]
    · intro e he hcode hinst; simp [getExistingPath, h1, h2, h3, h4, he, hcode, hinst]
    · intro e he hcode hinst; simp [getExistingPath, h1, h2, h3, h4, he, hcode, hinst]
    · intro e he hcode; simp [getExistingPath, h1, h2, h3, h4, he, hcode]
  · intro hnone e' hres h127
    by_cases hl : opts.isLocal = true
    · simp [getExistingPath, hl] at hres
    · simp only [Bool.not_eq_true] at hl
      by_cases hsk : (opts.cmdHadVersion || opts.packageRequested ||
          opts.ignoreExisting) = true
      · simp [getExistingPath, hl, hsk] at hres
      · cases lookup with
        | found p => simp [getExistingPath, hl, hsk] at hres
        | errored e =>
          have hen := hnone e rfl
          by_cases hcode : e.code = "ENOENT"
          · by_cases hinst : opts.install = some false
            · simp only [getExistingPath, hl, hsk, hcode, hinst] at hres
              simp only [Bool.false_eq_true, if_false, if_pos rfl, if_pos] at hres
              cases hres
              exact ⟨rfl, hinst⟩
            · simp [getExistingPath, hl, hsk, hcode, hinst] at hres
          · simp only [getExistingPath, hl, hsk, hcode] at hres
            simp only [Bool.false_eq_true, if_false, if_neg hcode] at hres
            cases hres
            rw [hen] at h127
            cases h127

/-- Witness for C5 at concrete inputs: a local request is returned
unchanged, and an absent command with installation disabled yields the
127-carrying error. -/
theorem claim_C5_witness :
    getExistingPath "cowsay" ⟨true, false, false, false, none⟩ (.found "/x") =
      .okPath "cowsay" ∧
    getExistingPath "cowsay" ⟨false, false, false, false, some false⟩
        (.errored ⟨"ENOENT", none⟩) = .errored ⟨"ENOENT", some 127⟩ :=
  ⟨(claim_C5 "cowsay" ⟨true, false, false, false, none⟩ (.found "/x")).1 rfl,
   ((claim_C5 "cowsay" ⟨false, false, false, false, some false⟩
        (.errored ⟨"ENOENT", none⟩)).2.1 rfl rfl rfl rfl).2.1
      ⟨"ENOENT", none⟩ rfl rfl rfl⟩

/-! ## Claim C10: post-install binary selection -/

/-- Splitting a PATH string never yields the empty segment list. -/
theorem splitOnChar_ne_nil (d : Char) (l : List Char) : splitOnChar d l ≠ [] := by
  cases l with
  | nil => simp [splitOnChar]
  | cons c cs =>
    by_cases h : (c == d) = true
    · simp [splitOnChar, h]
    · simp only [splitOnChar, Bool.not_eq_true] at *
      rw [h]
      cases splitOnChar d cs <;> simp

/-- Splitting a PATH built by prepending a delimiter-free directory peels
that directory off as the first segment. -/
theorem splitOnChar_append (d : Char) (dir rest : List Char) (h : d ∉ dir) :
    splitOnChar d (dir ++ d :: rest) = dir :: splitOnChar d rest := by
  induction dir with
  | nil => simp [splitOnChar]
  | cons c cs ih =>
    have hcd : ¬((c == d) = true) := by
      simp only [beq_iff_eq]
      intro hh
      exact h (hh ▸ List.mem_cons_self c cs)
    have hrec := ih fun hm => h (List.mem_cons_of_mem c hm)
    simp only [List.cons_append, splitOnChar, if_neg hcd, List.append_eq, hrec]

/-- Claim C6: after a successful provisioning run the executable search
path is, in order, the ephemeral bin directory, then the local project bin
directory, then the pre-existing path, so a command present in both the
ephemeral and the local bin directory resolves to the ephemeral one. -/
theorem claim_C6 :
    ∀ (contains : List Char → String → Bool) (binsD localD old : List Char)
      (cmd : String),
    ':' ∉ binsD → ':' ∉ localD →
    contains binsD cmd = true → contains localD cmd = true →
    splitOnChar ':' (pathPrepend binsD (pathPrepend localD old)) =
      binsD :: localD :: splitOnChar ':' old ∧
    resolveOnPath contains
      (splitOnChar ':' (pathPrepend binsD (pathPrepend localD old))) cmd =
      some binsD := by
  intro contains binsD localD old cmd hb hl hcb hcl
  have hsplit : splitOnChar ':' (pathPrepend binsD (pathPrepend localD old)) =
      binsD :: localD :: splitOnChar ':' old := by
    rw [pathPrepend, pathPrepend, splitOnChar_append ':' binsD _ hb,
      splitOnChar_append ':' localD _ hl]
  refine ⟨hsplit, ?_⟩
  rw [hsplit]
  simp [resolveOnPath, List.find?_cons, hcb]

/-- Witness for C6 at concrete inputs. -/
theorem claim_C6_witness :
    resolveOnPath (fun _ _ => true)
      (splitOnChar ':'
        (pathPrepend "/e/bin".data (pathPrepend "/l/bin".data "/usr/bin".data)))
      "cowsay" = some "/e/bin".data :=
  (claim_C6 (fun _ _ => true) "/e/bin".data "/l/bin".data "/usr/bin".data
    "cowsay" (by decide) (by decide) rfl rfl).2

/-! ## Claim C1: ephemeral-prefix lifecycle -/

/-- Membership in the result of a recursive removal. -/
theorem mem_rmRecFs {fs : List String} {p q : String} :
    q ∈ rmRecFs fs p ↔ q ∈ fs ∧ underDir p q = false := by
  simp [rmRecFs, List.mem_filter]

/-- A directory is under itself. -/
theorem underDir_self (p : String) : underDir p p = true := by
  simp [underDir]

/-- The ephemeral prefix is not under its own bin subdirectory, so the
defensive `rimraf` of the bin directory leaves the prefix in place. -/
theorem underDir_bins (p : String) : underDir (npxBins p) p = false := by
  have h1 : ((p ++ "/bin") == p) = false := by
    rw [beq_eq_false_iff_ne]
    intro h
    have hlen := congrArg String.length h
    rw [String.length_append] at hlen
    have h4 : ("/bin" : String).length = 4 := rfl
    omega
  have h2 : List.isPrefixOf (p ++ "/bin" ++ "/").data p.data = false := by
    rw [Bool.eq_false_iff]
    intro h
    have hle := (List.isPrefixOf_iff_prefix.mp h).length_le
    rw [String.data_append, String.data_append, List.length_append,
      List.length_append] at hle
    have h4 : ("/bin" : String).data.length = 4 := rfl
    have h1' : ("/" : String).data.length = 1 := rfl
    omega
  rw [underDir, npxBins, h1, h2]
  rfl

/-- Claim C1: in every provisioning run the ephemeral prefix
`<cache>/_npx/<pid>` is created (trace position 0) and the exit-time
recursive removal is registered (position 1) strictly before the
package-manager install is invoked (position 3); the registered cleanup
swallows a removal failure (a failing exit-time removal leaves the state
intact instead of crashing); and after a run whose install step fails, the
prefix — present while the process lives — is gone once the exit hooks
have run their removal. -/
theorem claim_C1 :
    ∀ (specs : List String) (cache : String) (pid : Nat) (fs0 : List String)
      (installOk : Bool),
    (ensurePackagesEvents specs cache pid installOk)[0]? =
      some (.mkdirRec (npxPrefixDir cache pid)) ∧
    (ensurePackagesEvents specs cache pid installOk)[1]? =
      some (.registerExitCleanup (npxPrefixDir cache pid)) ∧
    (ensurePackagesEvents specs cache pid installOk)[3]? =
      some (.installInvoke specs (npxPrefixDir cache pid)) ∧
    (∀ st : ProcState, processExit false st = st.fs) ∧
    npxPrefixDir cache pid ∈
      (runEvents ⟨fs0, []⟩ (ensurePackagesEvents specs cache pid false)).fs ∧
    npxPrefixDir cache pid ∉
      processExit true (runEvents ⟨fs0, []⟩ (ensurePackagesEvents specs cache pid false)) := by
  intro specs cache pid fs0 installOk
  refine ⟨by simp [ensurePackagesEvents], by simp [ensurePackagesEvents],
    by simp [ensurePackagesEvents], fun st => rfl, ?_, ?_⟩
  · show npxPrefixDir cache pid ∈
      rmRecFs (npxPrefixDir cache pid :: fs0) (npxBins (npxPrefixDir cache pid))
    rw [mem_rmRecFs]
    exact ⟨List.mem_cons_self .., underDir_bins _⟩
  · show npxPrefixDir cache pid ∉
      rmRecFs (rmRecFs (npxPrefixDir cache pid :: fs0)
        (npxBins (npxPrefixDir cache pid))) (npxPrefixDir cache pid)
    rw [mem_rmRecFs]
    rintro ⟨-, hu⟩
    rw [underDir_self] at hu
    cases hu

/-- Witness for C1 at concrete inputs: a failed-install run still ends
with the prefix removed at exit. -/
theorem claim_C1_witness :
    "/c/_npx/42" ∉
      processExit true
        (runEvents ⟨["/home"], []⟩ (ensurePackagesEvents ["cowsay"] "/c" 42 false)) := by
  have h := claim_C1 ["cowsay"] "/c" 42 ["/home"] false
  exact h.2.2.2.2.2

/-! ## Claim C2: the process-takeover condition -/

/-- Claim C2: `execCommand` performs a process takeover — replacing the
argument vector by `[runtimeBinary, targetScript, ...userArgs]` and handing
control to the runtime entry point, spawning no child — exactly when the
target resolved to a script, spawning was not forced, no (truthy)
interpreter flags were requested, no shell was requested, and the resolved
script is not the currently running script. -/
theorem claim_C2 :
    ∀ (resolved : Option String) (a : ExecArgv),
    ((∃ l, execCommand resolved a = .takeover l) ↔
      (∃ p, resolved = some p ∧ a.alwaysSpawn = false ∧ a.nodeArg.truthy = false ∧
        a.shell = false ∧ p ≠ a.currentScript)) ∧
    (∀ p, resolved = some p → a.alwaysSpawn = false → a.nodeArg.truthy = false →
      a.shell = false → p ≠ a.currentScript →
      execCommand resolved a = .takeover (a.nodeBin :: p :: a.cmdOpts)) := by
  intro resolved a
  have hdir : ∀ p, resolved = some p → a.alwaysSpawn = false →
      a.nodeArg.truthy = false → a.shell = false → p ≠ a.currentScript →
      execCommand resolved a = .takeover (a.nodeBin :: p :: a.cmdOpts) := by
    intro p hp h1 h2 h3 h4
    subst hp
    simp [execCommand, h1, h2, h3, h4]
  refine ⟨⟨?_, ?_⟩, hdir⟩
  · rintro ⟨l, hl⟩
    cases resolved with
    | none =>
      by_cases h : a.nodeArg.lengthTruthy = true <;> simp [execCommand, h] at hl
    | some p =>
      by_cases h : (!a.alwaysSpawn && !a.nodeArg.truthy && !a.shell &&
          p != a.currentScript) = true
      · refine ⟨p, rfl, ?_⟩
        simp only [Bool.and_eq_true, Bool.not_eq_true', bne_iff_ne, ne_eq] at h
        exact ⟨h.1.1.1, h.1.1.2, h.1.2, h.2⟩
      · rw [Bool.not_eq_true] at h
        simp [execCommand, h] at hl
  · rintro ⟨p, hp, h1, h2, h3, h4⟩
    exact ⟨_, hdir p hp h1 h2 h3 h4⟩

/-- Witness for C2 at concrete inputs: a resolved script with no
forcing flags is taken over in place. -/
theorem claim_C2_witness :
    execCommand (some "/t/cli.js")
      ⟨false, .absent, false, ["x"], "/usr/bin/node", "/npx"⟩ =
      .takeover ["/usr/bin/node", "/t/cli.js", "x"] :=
  (claim_C2 (some "/t/cli.js")
    ⟨false, .absent, false, ["x"], "/usr/bin/node", "/npx"⟩).2 "/t/cli.js"
    rfl rfl rfl rfl (by decide)

/-! ## Claim C8: interpreter-flag normalisation -/

/-- The whitespace splitter always produces at least one token. -/
theorem jsSplitAux_ne_nil : ∀ (b : Bool) (l : List Char), jsSplitAux b l ≠ [] := by
  intro b l
  induction l generalizing b with
  | nil => simp [jsSplitAux]
  | cons c cs ih =>
    by_cases hw : wsChar c = true
    · cases b with
      | false => simp [jsSplitAux, hw]
      | true =>
        simp only [jsSplitAux, hw, if_true]
        exact ih true
    · rw [Bool.not_eq_true] at hw
      simp only [jsSplitAux, hw, Bool.false_eq_true, if_false]
      cases hx : jsSplitAux false cs <;> simp

/-- Every token produced by the whitespace splitter is whitespace-free. -/
theorem jsSplitAux_wsFree :
    ∀ (b : Bool) (l : List Char) (t : List Char),
    t ∈ jsSplitAux b l → ∀ c ∈ t, wsChar c = false := by
  intro b l
  induction l generalizing b with
  | nil =>
    intro t ht
    simp only [jsSplitAux, List.mem_singleton] at ht
    subst ht
    intro c hc
    cases hc
  | cons c cs ih =>
    intro t ht
    by_cases hw : wsChar c = true
    · cases b with
      | true =>
        simp only [jsSplitAux, hw, if_true] at ht
        exact ih true t ht
      | false =>
        simp only [jsSplitAux, hw, if_true] at ht
        cases ht with
        | head =>
          intro c hc
          cases hc
        | tail _ h2 => exact ih true t h2
    · rw [Bool.not_eq_true] at hw
      simp only [jsSplitAux, hw, Bool.false_eq_true, if_false] at ht
      cases hx : jsSplitAux false cs with
      | nil => exact absurd hx (jsSplitAux_ne_nil false cs)
      | cons x xs =>
        rw [hx] at ht
        simp only [List.mem_cons] at ht
        rcases ht with rfl | ht
        · intro c' hc'
          rcases List.mem_cons.mp hc' with rfl | hc'
          · exact hw
          · exact ih false x (hx ▸ List.mem_cons_self x xs) c' hc'
        · exact ih false t (hx ▸ List.mem_cons_of_mem x ht)

/-- A whitespace-free chunk splits into itself alone. -/
theorem jsSplitAux_wsFree_id :
    ∀ l : List Char, (∀ c ∈ l, wsChar c = false) → jsSplitAux false l = [l] := by
  intro l hl
  induction l with
  | nil => rfl
  | cons c cs ih =>
    have hw : wsChar c = false := hl c (List.mem_cons_self c cs)
    have hrec := ih fun c' hc' => hl c' (List.mem_cons_of_mem c hc')
    simp only [jsSplitAux, hw, Bool.false_eq_true, if_false, hrec]

/-- Lifted to strings. -/
theorem jsSplitStr_wsFree_id (t : String)
    (h : ∀ c ∈ t.data, wsChar c = false) : jsSplitStr t = [t] := by
  simp only [jsSplitStr, jsSplitWs, jsSplitAux_wsFree_id t.data h, List.map_cons,
    List.map_nil]

/-- The fold of `splitArgs` is a join of the per-element splits. -/
theorem splitArgs_foldl (l : List String) :
    ∀ acc : List String,
    List.foldl (fun acc a => acc ++ jsSplitStr a) acc l =
      acc ++ (l.map jsSplitStr).flatten := by
  induction l with
  | nil => intro acc; simp
  | cons a as ih =>
    intro acc
    simp only [List.foldl_cons, ih, List.map_cons, List.flatten_cons,
      List.append_assoc]

theorem splitArgs_eq_flatten (l : List String) :
    splitArgs l = (l.map jsSplitStr).flatten := by
  simpa using splitArgs_foldl l []

/-- Re-splitting already-split (whitespace-free) tokens is the identity. -/
theorem splitArgs_resplit (toks : List String)
    (h : ∀ t ∈ toks, ∀ c ∈ t.data, wsChar c = false) : splitArgs toks = toks := by
  rw [splitArgs_eq_flatten]
  induction toks with
  | nil => rfl
  | cons t ts ih =>
    have ht := jsSplitStr_wsFree_id t (h t (List.mem_cons_self t ts))
    have hrec := ih fun t' ht' => h t' (List.mem_cons_of_mem t ht')
    simp only [List.map_cons, List.flatten_cons, ht, List.singleton_append, hrec]

/-- Claim C8: in the spawn branch of `execCommand` with a resolved script,
a single interpreter-flag string and the sequence of its whitespace-split
tokens produce identical child argument lists, the tokens standing before
the resolved script path, which is followed by the original trailing
arguments. -/
theorem claim_C8 :
    ∀ (s : String) (p : String) (a : ExecArgv), s ≠ "" →
    execCommand (some p) { a with nodeArg := .str s } =
      execCommand (some p) { a with nodeArg := .arr (jsSplitStr s) } ∧
    execCommand (some p) { a with nodeArg := .str s } =
      .spawn (some a.nodeBin) (jsSplitStr s ++ p :: a.cmdOpts) := by
  intro s p a hs
  have hwf : ∀ t ∈ jsSplitStr s, ∀ c ∈ t.data, wsChar c = false := by
    intro t ht c hc
    simp only [jsSplitStr, List.mem_map] at ht
    obtain ⟨l, hl, rfl⟩ := ht
    exact jsSplitAux_wsFree false s.data l hl c hc
  have hsa1 : splitArgs (NodeArgVal.normalize (.str s)) = jsSplitStr s := by
    simp [NodeArgVal.normalize, hs, splitArgs_eq_flatten]
  have hsa2 : splitArgs (NodeArgVal.normalize (.arr (jsSplitStr s))) =
      jsSplitStr s := by
    simpa [NodeArgVal.normalize] using splitArgs_resplit (jsSplitStr s) hwf
  have h2 : execCommand (some p) { a with nodeArg := .str s } =
      .spawn (some a.nodeBin) (jsSplitStr s ++ p :: a.cmdOpts) := by
    simp [execCommand, NodeArgVal.truthy, hs, hsa1]
  refine ⟨?_, h2⟩
  rw [h2]
  simp [execCommand, NodeArgVal.truthy, hsa2]

/-- Witness for C8: `"--inspect --harmony"` and
`["--inspect", "--harmony"]` compose the same child arguments. -/
theorem claim_C8_witness :
    execCommand (some "/t/cli.js")
      ⟨false, .str "--inspect --harmony", false, ["f.txt"], "/usr/bin/node", "/npx"⟩ =
      execCommand (some "/t/cli.js")
        ⟨false, .arr ["--inspect", "--harmony"], false, ["f.txt"], "/usr/bin/node",
          "/npx"⟩ ∧
    execCommand (some "/t/cli.js")
      ⟨false, .str "--inspect --harmony", false, ["f.txt"], "/usr/bin/node", "/npx"⟩ =
      .spawn (some "/usr/bin/node")
        ["--inspect", "--harmony", "/t/cli.js", "f.txt"] := by
  have h := claim_C8 "--inspect --harmony" "/t/cli.js"
    ⟨false, .absent, false, ["f.txt"], "/usr/bin/node", "/npx"⟩ (by decide)
  exact ⟨h.1, h.2⟩

/-! ## Claim C3: the shebang acceptance language

The lemmas below establish that the scanner `hasDirective` recognises
exactly the strings containing a directive (in the relational sense of
`IsDirective`) at some position. -/

theorem dropLit_sound :
    ∀ (pat s r : List Char), dropLit pat s = some r →
    ∃ t, s = t ++ r ∧ ciAgreeB pat t = true := by
  intro pat
  induction pat with
  | nil =>
    intro s r h
    simp only [dropLit, Option.some.injEq] at h
    exact ⟨[], by rw [List.nil_append, h], rfl⟩
  | cons p ps ih =>
    intro s r h
    cases s with
    | nil => simp [dropLit] at h
    | cons c cs =>
      simp only [dropLit] at h
      by_cases hl : lowEq p c = true
      · rw [if_pos hl] at h
        obtain ⟨t, ht, hag⟩ := ih cs r h
        exact ⟨c :: t, by rw [List.cons_append, ht],
          by simp [ciAgreeB, hl, hag]⟩
      · rw [if_neg hl] at h
        cases h

theorem dropLit_complete :
    ∀ (pat t : List Char), ciAgreeB pat t = true →
    ∀ r, dropLit pat (t ++ r) = some r := by
  intro pat
  induction pat with
  | nil =>
    intro t h r
    cases t with
    | nil => rfl
    | cons c cs => simp [ciAgreeB] at h
  | cons p ps ih =>
    intro t h r
    cases t with
    | nil => simp [ciAgreeB] at h
    | cons c cs =>
      simp only [ciAgreeB, Bool.and_eq_true] at h
      simp only [List.cons_append, dropLit, h.1, if_true]
      exact ih cs h.2 r

theorem dropWs_decomp :
    ∀ s : List Char, ∃ w, s = w ++ dropWs s ∧ allWs w = true := by
  intro s
  induction s with
  | nil => exact ⟨[], rfl, rfl⟩
  | cons c cs ih =>
    by_cases hw : wsChar c = true
    · obtain ⟨w, hd, hws⟩ := ih
      refine ⟨c :: w, ?_, ?_⟩
      · simp only [dropWs, hw, if_true, List.cons_append]
        exact congrArg (c :: ·) hd
      · simp [allWs, hw]
        simpa [allWs] using hws
    · rw [Bool.not_eq_true] at hw
      exact ⟨[], by simp [dropWs, hw], rfl⟩

theorem dropWs_append :
    ∀ w : List Char, allWs w = true →
    ∀ r, dropWs (w ++ r) = dropWs r := by
  intro w
  induction w with
  | nil => intro _ r; rfl
  | cons c cs ih =>
    intro hw r
    simp only [allWs, List.all_cons, Bool.and_eq_true] at hw
    simp only [List.cons_append, dropWs, hw.1, if_true]
    exact ih hw.2 r

theorem dropWs_nonws (c : Char) (cs : List Char) (h : wsChar c = false) :
    dropWs (c :: cs) = c :: cs := by
  simp [dropWs, h]

theorem wsThenNl_sound :
    ∀ s : List Char, wsThenNl s = true →
    ∃ w rest, s = w ++ '\n' :: rest ∧ allWs w = true := by
  intro s
  induction s with
  | nil => intro h; cases h
  | cons c cs ih =>
    intro h
    by_cases hn : (c == '\n') = true
    · rw [beq_iff_eq] at hn
      subst hn
      exact ⟨[], cs, rfl, rfl⟩
    · rw [Bool.not_eq_true] at hn
      simp only [wsThenNl, hn, Bool.false_eq_true, if_false] at h
      by_cases hw : wsChar c = true
      · rw [if_pos hw] at h
        obtain ⟨w, rest, hd, hws⟩ := ih h
        refine ⟨c :: w, rest, by rw [List.cons_append, hd], ?_⟩
        simp [allWs, hw]
        simpa [allWs] using hws
      · rw [if_neg hw] at h
        cases h

theorem wsThenNl_complete :
    ∀ w : List Char, allWs w = true →
    ∀ rest, wsThenNl (w ++ '\n' :: rest) = true := by
  intro w
  induction w with
  | nil => intro _ rest; rfl
  | cons c cs ih =>
    intro hw rest
    simp only [allWs, List.all_cons, Bool.and_eq_true] at hw
    by_cases hn : (c == '\n') = true
    · simp [wsThenNl, hn]
    · rw [Bool.not_eq_true] at hn
      simp only [List.cons_append, wsThenNl, hn, Bool.false_eq_true, if_false,
        hw.1, if_true]
      exact ih hw.2 rest

theorem wsChar_cases (c : Char) (h : wsChar c = true) :
    c = ' ' ∨ c = '\t' ∨ c = '\n' ∨ c = '\x0b' ∨ c = '\x0c' ∨ c = '\r' := by
  simp only [wsChar, Bool.or_eq_true, beq_iff_eq] at h
  tauto

theorem lowEq_slash_not_ws (c : Char) (h : lowEq '/' c = true) :
    wsChar c = false := by
  by_contra hne
  rw [Bool.not_eq_false] at hne
  rcases wsChar_cases c hne with rfl | rfl | rfl | rfl | rfl | rfl <;>
    exact absurd h (by decide)

theorem lowEq_n_not_ws (c : Char) (h : lowEq 'n' c = true) :
    wsChar c = false := by
  by_contra hne
  rw [Bool.not_eq_false] at hne
  rcases wsChar_cases c hne with rfl | rfl | rfl | rfl | rfl | rfl <;>
    exact absurd h (by decide)

/-- A chunk agreeing with a pattern that starts with a given character has
a head, and its head obeys any constraint the pattern head imposes. -/
theorem agree_cons_shape (q : Char) (qs t : List Char)
    (hag : ciAgreeB (q :: qs) t = true) :
    ∃ c cs, t = c :: cs ∧ lowEq q c = true := by
  cases t with
  | nil => simp [ciAgreeB] at hag
  | cons c cs =>
    simp only [ciAgreeB, Bool.and_eq_true] at hag
    exact ⟨c, cs, rfl, hag.1⟩

theorem env_head_not_ws (t : List Char) (hag : ciAgreeB envChars t = true) :
    ∃ c cs, t = c :: cs ∧ wsChar c = false := by
  have h' : ciAgreeB ('/' :: "usr/bin/env".data) t = true := hag
  obtain ⟨c, cs, rfl, hl⟩ := agree_cons_shape '/' _ t h'
  exact ⟨c, cs, rfl, lowEq_slash_not_ws c hl⟩

theorem node_head_not_ws (t : List Char) (hag : ciAgreeB nodeChars t = true) :
    ∃ c cs, t = c :: cs ∧ wsChar c = false := by
  have h' : ciAgreeB ('n' :: "ode".data) t = true := hag
  obtain ⟨c, cs, rfl, hl⟩ := agree_cons_shape 'n' _ t h'
  exact ⟨c, cs, rfl, lowEq_n_not_ws c hl⟩

theorem local_head_not_ws (t : List Char) (hag : ciAgreeB localChars t = true) :
    ∃ c cs, t = c :: cs ∧ wsChar c = false := by
  have h' : ciAgreeB ('/' :: "usr/local/bin/node".data) t = true := hag
  obtain ⟨c, cs, rfl, hl⟩ := agree_cons_shape '/' _ t h'
  exact ⟨c, cs, rfl, lowEq_slash_not_ws c hl⟩

theorem bin_head_not_ws (t : List Char) (hag : ciAgreeB binChars t = true) :
    ∃ c cs, t = c :: cs ∧ wsChar c = false := by
  have h' : ciAgreeB ('/' :: "usr/bin/node".data) t = true := hag
  obtain ⟨c, cs, rfl, hl⟩ := agree_cons_shape '/' _ t h'
  exact ⟨c, cs, rfl, lowEq_slash_not_ws c hl⟩

theorem matchDirAt_sound :
    ∀ s : List Char, matchDirAt s = true → ∃ d r, s = d ++ r ∧ IsDirective d := by
  intro s h
  cases h1 : dropLit ['#', '!'] s with
  | none =>
    simp only [matchDirAt, h1] at h
    exact absurd h (by decide)
  | some r1 =>
    simp only [matchDirAt, h1, Bool.or_eq_true] at h
    obtain ⟨hh, hs1, hagh⟩ := dropLit_sound _ _ _ h1
    obtain ⟨w1, hw1d, hw1⟩ := dropWs_decomp r1
    rcases h with (henv | hloc) | hbin
    · cases h2 : dropLit envChars (dropWs r1) with
      | none =>
        simp only [h2] at henv
        exact absurd henv (by decide)
      | some r3 =>
        simp only [h2] at henv
        cases h3 : dropLit nodeChars (dropWs r3) with
        | none =>
          simp only [h3] at henv
          exact absurd henv (by decide)
        | some r4 =>
          simp only [h3] at henv
          obtain ⟨e, he, hage⟩ := dropLit_sound _ _ _ h2
          obtain ⟨w, hwd, hw⟩ := dropWs_decomp r3
          obtain ⟨n, hn, hagn⟩ := dropLit_sound _ _ _ h3
          obtain ⟨w2, rest, hr4, hw2⟩ := wsThenNl_sound _ henv
          refine ⟨hh ++ w1 ++ (e ++ w ++ n) ++ w2 ++ ['\n'], rest, ?_, ?_⟩
          · rw [hw1d] at hs1
            rw [he] at hs1
            rw [hwd] at hs1
            rw [hn] at hs1
            rw [hr4] at hs1
            rw [hs1]
            simp [List.append_assoc]
          · exact ⟨hh, w1, e ++ w ++ n, w2, rfl, hagh, hw1,
              Or.inl ⟨e, w, n, rfl, hage, hw, hagn⟩, hw2⟩
    · cases h2 : dropLit localChars (dropWs r1) with
      | none =>
        simp only [h2] at hloc
        exact absurd hloc (by decide)
      | some r3 =>
        simp only [h2] at hloc
        obtain ⟨t, htd, hagt⟩ := dropLit_sound _ _ _ h2
        obtain ⟨w2, rest, hr3, hw2⟩ := wsThenNl_sound _ hloc
        refine ⟨hh ++ w1 ++ t ++ w2 ++ ['\n'], rest, ?_, ?_⟩
        · rw [hw1d] at hs1
          rw [htd] at hs1
          rw [hr3] at hs1
          rw [hs1]
          simp [List.append_assoc]
        · exact ⟨hh, w1, t, w2, rfl, hagh, hw1, Or.inr (Or.inl hagt), hw2⟩
    · cases h2 : dropLit binChars (dropWs r1) with
      | none =>
        simp only [h2] at hbin
        exact absurd hbin (by decide)
      | some r3 =>
        simp only [h2] at hbin
        obtain ⟨t, htd, hagt⟩ := dropLit_sound _ _ _ h2
        obtain ⟨w2, rest, hr3, hw2⟩ := wsThenNl_sound _ hbin
        refine ⟨hh ++ w1 ++ t ++ w2 ++ ['\n'], rest, ?_, ?_⟩
        · rw [hw1d] at hs1
          rw [htd] at hs1
          rw [hr3] at hs1
          rw [hs1]
          simp [List.append_assoc]
        · exact ⟨hh, w1, t, w2, rfl, hagh, hw1, Or.inr (Or.inr hagt), hw2⟩

theorem matchDirAt_complete :
    ∀ d rest : List Char, IsDirective d → matchDirAt (d ++ rest) = true := by
  intro d rest hd
  obtain ⟨h, w1, p, w2, hdeq, hagh, hw1, hps, hw2⟩ := hd
  subst hdeq
  rcases hps with ⟨e, w, n, hpeq, hage, hw, hagn⟩ | hloc | hbin
  · subst hpeq
    have hassoc : (h ++ w1 ++ (e ++ w ++ n) ++ w2 ++ ['\n']) ++ rest =
        h ++ (w1 ++ (e ++ (w ++ (n ++ (w2 ++ ('\n' :: rest)))))) := by
      simp [List.append_assoc]
    rw [hassoc]
    have h1 := dropLit_complete _ _ hagh
      (w1 ++ (e ++ (w ++ (n ++ (w2 ++ ('\n' :: rest))))))
    obtain ⟨c1, cs1, he1, hnw1⟩ := env_head_not_ws e hage
    have h2 : dropWs (w1 ++ (e ++ (w ++ (n ++ (w2 ++ ('\n' :: rest)))))) =
        e ++ (w ++ (n ++ (w2 ++ ('\n' :: rest)))) := by
      rw [dropWs_append w1 hw1, he1, List.cons_append,
        dropWs_nonws c1 _ hnw1, ← List.cons_append, ← he1]
    have h3 := dropLit_complete _ _ hage (w ++ (n ++ (w2 ++ ('\n' :: rest))))
    obtain ⟨c2, cs2, hn2, hnw2⟩ := node_head_not_ws n hagn
    have h4 : dropWs (w ++ (n ++ (w2 ++ ('\n' :: rest)))) =
        n ++ (w2 ++ ('\n' :: rest)) := by
      rw [dropWs_append w hw, hn2, List.cons_append,
        dropWs_nonws c2 _ hnw2, ← List.cons_append, ← hn2]
    have h5 := dropLit_complete _ _ hagn (w2 ++ ('\n' :: rest))
    have h6 := wsThenNl_complete w2 hw2 rest
    simp only [matchDirAt, h1, h2, h3, h4, h5, h6, Bool.true_or]
  · have hassoc : (h ++ w1 ++ p ++ w2 ++ ['\n']) ++ rest =
        h ++ (w1 ++ (p ++ (w2 ++ ('\n' :: rest)))) := by
      simp [List.append_assoc]
    rw [hassoc]
    have h1 := dropLit_complete _ _ hagh (w1 ++ (p ++ (w2 ++ ('\n' :: rest))))
    obtain ⟨c1, cs1, hp1, hnw1⟩ := local_head_not_ws p hloc
    have h2 : dropWs (w1 ++ (p ++ (w2 ++ ('\n' :: rest)))) =
        p ++ (w2 ++ ('\n' :: rest)) := by
      rw [dropWs_append w1 hw1, hp1, List.cons_append,
        dropWs_nonws c1 _ hnw1, ← List.cons_append, ← hp1]
    have h3 := dropLit_complete _ _ hloc (w2 ++ ('\n' :: rest))
    have h6 := wsThenNl_complete w2 hw2 rest
    simp only [matchDirAt, h1, h2, h3, h6, Bool.or_true, Bool.true_or]
  · have hassoc : (h ++ w1 ++ p ++ w2 ++ ['\n']) ++ rest =
        h ++ (w1 ++ (p ++ (w2 ++ ('\n' :: rest)))) := by
      simp [List.append_assoc]
    rw [hassoc]
    have h1 := dropLit_complete _ _ hagh (w1 ++ (p ++ (w2 ++ ('\n' :: rest))))
    obtain ⟨c1, cs1, hp1, hnw1⟩ := bin_head_not_ws p hbin
    have h2 : dropWs (w1 ++ (p ++ (w2 ++ ('\n' :: rest)))) =
        p ++ (w2 ++ ('\n' :: rest)) := by
      rw [dropWs_append w1 hw1, hp1, List.cons_append,
        dropWs_nonws c1 _ hnw1, ← List.cons_append, ← hp1]
    have h3 := dropLit_complete _ _ hbin (w2 ++ ('\n' :: rest))
    have h6 := wsThenNl_complete w2 hw2 rest
    simp only [matchDirAt, h1, h2, h3, h6, Bool.or_true]

theorem hasDirective_sound :
    ∀ s : List Char, hasDirective s = true →
    ∃ a t, s = a ++ t ∧ matchDirAt t = true := by
  intro s
  induction s with
  | nil => intro h; cases h
  | cons c cs ih =>
    intro h
    rw [hasDirective, Bool.or_eq_true] at h
    rcases h with h | h
    · exact ⟨[], c :: cs, rfl, h⟩
    · obtain ⟨a, t, hd, hm⟩ := ih h
      exact ⟨c :: a, t, by rw [List.cons_append, hd], hm⟩

theorem hasDirective_complete :
    ∀ a t : List Char, matchDirAt t = true → hasDirective (a ++ t) = true := by
  intro a
  induction a with
  | nil =>
    intro t h
    cases t with
    | nil => exact absurd h (by decide)
    | cons c cs =>
      rw [List.nil_append, hasDirective, h, Bool.true_or]
  | cons c cs ih =>
    intro t h
    rw [List.cons_append, hasDirective, Bool.or_eq_true]
    exact Or.inr (ih t h)

/-- The scanner recognises exactly the strings containing a directive. -/
theorem hasDirective_iff (s : List Char) :
    hasDirective s = true ↔ ∃ a d b, s = a ++ d ++ b ∧ IsDirective d := by
  constructor
  · intro h
    obtain ⟨a, t, hs, hm⟩ := hasDirective_sound s h
    obtain ⟨d, r, ht, hd⟩ := matchDirAt_sound t hm
    exact ⟨a, d, r, by rw [hs, ht, List.append_assoc], hd⟩
  · rintro ⟨a, d, b, hs, hd⟩
    rw [hs, List.append_assoc]
    exact hasDirective_complete a (d ++ b) (matchDirAt_complete d b hd)

/-- Counterexample to C3: the claim asserts classification tracks the
leading line only.  The file beginning `x` — whose leading line is no
interpreter directive, as witnessed by the failed anchored match — is
nonetheless classified as an interpreter script, because the source's
regex is unanchored and finds the directive on the second line. -/
theorem claim_C3_counterexample :
    shebangClassify "x\n#!/usr/bin/env node\n".data = true ∧
    matchDirAt "x\n#!/usr/bin/env node\n".data = false := by
  exact ⟨by decide, by decide⟩

/-- Claim C3 (amended): on a POSIX-like target, a file that is not a
local-bin entry is classified as an interpreter script exactly when its
first 400 bytes contain — at any position, not only as the leading line —
one of the three accepted interpreter directives (`#!` with optional
whitespace, then `/usr/bin/env node` (whitespace optional between `env`
and `node`), `/usr/local/bin/node`, or `/usr/bin/node`, case-insensitive,
optional trailing whitespace, terminated by a newline, a carriage return
being whitespace); otherwise it is classified as not-a-script. -/
theorem claim_C3_amended :
    ∀ (fs : FS) (p : String) (content : List Char),
    fsLookup fs p = some (.file content) →
    ((findNodeScript 1 fs (some p) false = .script p ↔
      ∃ a d b, content.take 400 = a ++ d ++ b ∧ IsDirective d) ∧
     (findNodeScript 1 fs (some p) false = .script p ∨
      findNodeScript 1 fs (some p) false = .notScript)) := by
  intro fs p content hlk
  have hred : findNodeScript 1 fs (some p) false =
      if shebangClassify content = true then .script p else .notScript := by
    simp [findNodeScript, hlk]
  by_cases hc : shebangClassify content = true
  · have hscript : findNodeScript 1 fs (some p) false = .script p := by
      rw [hred, if_pos hc]
    refine ⟨⟨fun _ => (hasDirective_iff _).mp hc, fun _ => hscript⟩, Or.inl hscript⟩
  · have hnot : findNodeScript 1 fs (some p) false = .notScript := by
      rw [hred, if_neg hc]
    refine ⟨⟨fun hcontra => ?_, fun hex => ?_⟩, Or.inr hnot⟩
    · rw [hnot] at hcontra
      cases hcontra
    · exact absurd ((hasDirective_iff _).mpr hex) hc

/-- Witness for the amended C3: a file whose single line is the `env`
directive is classified as a script. -/
theorem claim_C3_witness :
    findNodeScript 1 [("/f", FsEntry.file "#!/usr/bin/env node\n".data)]
      (some "/f") false = .script "/f" := by
  refine ((claim_C3_amended [("/f", FsEntry.file "#!/usr/bin/env node\n".data)]
    "/f" "#!/usr/bin/env node\n".data rfl).1).mpr
    ⟨[], "#!/usr/bin/env node\n".data, [], by decide,
      ['#', '!'], [], "/usr/bin/env node".data, [], by decide, by decide, by decide,
      Or.inl ⟨"/usr/bin/env".data, [' '], "node".data, by decide, by decide,
        by decide, by decide⟩, by decide⟩

/-! ## Claim C4: local directory-as-package resolution -/

theorem lastComponent_foldl (l : List Char) :
    ∀ acc, (∀ c ∈ l, (c == '/') = false) →
    l.foldl (fun acc c => if c == '/' then [] else acc ++ [c]) acc = acc ++ l := by
  induction l with
  | nil => intro acc _; simp
  | cons c cs ih =>
    intro acc h
    have hc := h c (List.mem_cons_self c cs)
    simp only [List.foldl_cons, hc, Bool.false_eq_true, if_false]
    rw [ih (acc ++ [c]) fun c' hc' => h c' (List.mem_cons_of_mem c hc')]
    simp

theorem lastComponent_no_slash (l : List Char)
    (h : ∀ c ∈ l, (c == '/') = false) : lastComponent l = l := by
  unfold lastComponent
  rw [lastComponent_foldl l [] h]
  simp

theorem lastComponent_append_slash (l m : List Char) :
    lastComponent (l ++ '/' :: m) = lastComponent m := by
  unfold lastComponent
  rw [List.foldl_append]
  simp only [List.foldl_cons, beq_self_eq_true, if_true]

/-- The model of `path.extname` only looks at the part after the last `/`. -/
theorem extname_after (p m : String) (h : ∀ c ∈ m.data, (c == '/') = false) :
    extname (p ++ "/" ++ m) = extname m := by
  have hdata : (p ++ "/" ++ m).data = p.data ++ '/' :: m.data := by
    rw [String.data_append, String.data_append]
    simp
  unfold extname
  rw [hdata, lastComponent_append_slash, lastComponent_no_slash m.data h]

/-- The `index.js` fallback target always passes the trusted-extension
test of the local branch. -/
theorem jsExt_index (p : String) : jsExt (p ++ "/" ++ "index.js") = true := by
  have h : extname (p ++ "/" ++ "index.js") = extname "index.js" :=
    extname_after p "index.js" (by decide)
  simp only [jsExt, h]
  decide

/-- Counterexample to C4: the claim asserts a directory with neither `bin`
nor `main` fails with `CommandNotFoundError`.  On a package root whose
manifest has neither field but which contains an `index.js`, resolution
instead falls back to `index.js` and succeeds (the file is trusted by
extension), producing a script, not an error. -/
theorem claim_C4_counterexample :
    findNodeScript 2
      [("/pkg", FsEntry.directory (some ⟨none, none⟩)),
       ("/pkg/index.js", FsEntry.file [])] (some "/pkg") true =
      .script "/pkg/index.js" ∧
    (findNodeScript 2
      [("/pkg", FsEntry.directory (some ⟨none, none⟩)),
       ("/pkg/index.js", FsEntry.file [])] (some "/pkg") true).isCnf = false := by
  exact ⟨by decide, by decide⟩

/-- Claim C4 (amended): a local-bin directory's manifest gives the target
`bin ?? main ?? "index.js"`, resolved recursively: a missing or unreadable
manifest fails with `CommandNotFoundError` naming the directory; a
directory with neither `bin` nor `main` resolves its `index.js` file —
succeeding (trusted by extension) whenever that file exists, rather than
failing; a manifest whose `bin` names an interpreter script resolves to
that script in one recursive hop; and when the recursive resolution yields
not-a-script (the `bin` target is a file with no interpreter directive),
resolution fails with `CommandNotFoundError` naming the target. -/
theorem claim_C4_amended :
    ∀ (fs : FS) (p : String),
    (fsLookup fs p = some (.directory none) → jsExt p = false →
      findNodeScript 2 fs (some p) true = .cnf p) ∧
    (∀ e : FsEntry, fsLookup fs p = some (.directory (some ⟨none, none⟩)) →
      jsExt p = false → fsLookup fs (p ++ "/" ++ "index.js") = some e →
      findNodeScript 2 fs (some p) true = .script (p ++ "/" ++ "index.js")) ∧
    (∀ (b : String) (content : List Char),
      fsLookup fs p = some (.directory (some ⟨some b, none⟩)) →
      jsExt p = false → b ≠ "" →
      fsLookup fs (p ++ "/" ++ b) = some (.file content) →
      jsExt (p ++ "/" ++ b) = false → shebangClassify content = true →
      findNodeScript 2 fs (some p) true = .script (p ++ "/" ++ b)) ∧
    (∀ (b : String) (content : List Char),
      fsLookup fs p = some (.directory (some ⟨some b, none⟩)) →
      jsExt p = false → b ≠ "" →
      fsLookup fs (p ++ "/" ++ b) = some (.file content) →
      jsExt (p ++ "/" ++ b) = false → shebangClassify content = false →
      findNodeScript 2 fs (some p) true = .cnf (p ++ "/" ++ b)) := by
  intro fs p
  refine ⟨?_, ?_, ?_, ?_⟩
  · intro hm hjs
    simp [findNodeScript, hm, hjs]
  · intro e hm hjs hidx
    have htgt : manifestTarget ⟨none, none⟩ = "index.js" := rfl
    simp [findNodeScript, hm, hjs, htgt, hidx, jsExt_index]
  · intro b content hm hjs hb hbf hjs2 hsh
    have htgt : manifestTarget ⟨some b, none⟩ = b := by
      simp [manifestTarget, jsStrOr, hb]
    simp [findNodeScript, hm, hjs, htgt, hbf, hjs2, hsh]
  · intro b content hm hjs hb hbf hjs2 hsh
    have htgt : manifestTarget ⟨some b, none⟩ = b := by
      simp [manifestTarget, jsStrOr, hb]
    simp [findNodeScript, hm, hjs, htgt, hbf, hjs2, hsh]

/-- Witness for the amended C4 at concrete inputs: no manifest fails with
`command not found`; neither `bin` nor `main` resolves `index.js`; a `bin`
entry pointing at a shebang script resolves in one hop; a `bin` entry
pointing at a shebang-less file fails with `command not found` naming the
target. -/
theorem claim_C4_witness :
    findNodeScript 2 [("/nom", FsEntry.directory none)] (some "/nom") true =
      .cnf "/nom" ∧
    findNodeScript 2
      [("/pkg", FsEntry.directory (some ⟨none, none⟩)),
       ("/pkg/index.js", FsEntry.file [])] (some "/pkg") true =
      .script ("/pkg" ++ "/" ++ "index.js") ∧
    findNodeScript 2
      [("/q", FsEntry.directory (some ⟨some "cli", none⟩)),
       ("/q/cli", FsEntry.file "#!/usr/bin/env node\n".data)] (some "/q") true =
      .script ("/q" ++ "/" ++ "cli") ∧
    findNodeScript 2
      [("/r", FsEntry.directory (some ⟨some "cli", none⟩)),
       ("/r/cli", FsEntry.file "echo hi\n".data)] (some "/r") true =
      .cnf ("/r" ++ "/" ++ "cli") := by
  refine ⟨(claim_C4_amended _ "/nom").1 rfl (by decide),
    (claim_C4_amended _ "/pkg").2.1 (FsEntry.file []) rfl (by decide) rfl,
    (claim_C4_amended _ "/q").2.2.1 "cli" "#!/usr/bin/env node\n".data rfl
      (by decide) (by decide) rfl (by decide) (by decide),
    (claim_C4_amended _ "/r").2.2.2 "cli" "echo hi\n".data rfl
      (by decide) (by decide) rfl (by decide) (by decide)⟩

end Npx
